import Mathlib

/-!
A shallow embedding of the dictionary lookup and morphological analysis
engine of `internal/xml/dictionary.go` (with the guard of
`internal/handlers/dictionary.go` for the lookup endpoint).

Go strings are modelled as byte lists (`GoStr`), because the source mixes
byte indexing (slicing `word[:i]`, `len`, `strings.HasSuffix`) with rune
indexing (`[]rune(word)` in `isValidSplitPoint` and
`generateSandhiCandidates`).  A faithful UTF-8 codec (Go
`utf8.DecodeRune` semantics, invalid bytes decode to U+FFFD) connects the
two views.  Dictionary volume contents are data files, not source, so the
list of extracted headwords is a parameter of the lookup functions;
likewise the iteration order of the Go map `paliParticles` is unspecified
by the language, so it is passed as an explicit list of key/value pairs.
-/

/-- A Go string: a list of bytes (each < 256 in practice). -/
abbrev GoStr := List Nat

/-- UTF-8 encoding of one code point (as produced by Go `string(rune)`
for the code points this engine uses; none exceed U+FFFF). -/
def utf8Encode (c : Nat) : GoStr :=
  if c < 0x80 then [c]
  else if c < 0x800 then [0xC0 + c / 64, 0x80 + c % 64]
  else [0xE0 + c / 4096, 0x80 + (c / 64) % 64, 0x80 + c % 64]

/-- Encode a list of code points to UTF-8 bytes (Go `string([]rune)`). -/
def utf8EncodeAll (cs : List Nat) : GoStr :=
  (cs.map utf8Encode).flatten

/-- Convert a Lean string literal to its Go byte representation. -/
def goStr (s : String) : GoStr :=
  utf8EncodeAll (s.data.map Char.toNat)

/-- Is `b` a UTF-8 continuation byte? -/
def contOk (b : Nat) : Bool := 0x80 ≤ b && b ≤ 0xBF

/-- Validity of the first continuation byte of a 3-byte sequence,
per Go `utf8.DecodeRune` (excludes overlong forms and surrogates). -/
def cont3Ok (b0 b1 : Nat) : Bool :=
  if b0 = 0xE0 then 0xA0 ≤ b1 && b1 ≤ 0xBF
  else if b0 = 0xED then 0x80 ≤ b1 && b1 ≤ 0x9F
  else contOk b1

/-- Decode one code point: from the first byte `b` and the remaining bytes
`r`, return the rune and how many bytes of `r` it additionally consumes
(Go `utf8.DecodeRune`: every invalid or incomplete sequence yields U+FFFD
and consumes only one byte in total). -/
def decodeOne (b : Nat) (r : GoStr) : Nat × Nat :=
  if b < 0x80 then (b, 0)
  else if 0xC2 ≤ b && b ≤ 0xDF then
    match r with
    | b1 :: _ =>
      if contOk b1 then ((b - 0xC0) * 64 + (b1 - 0x80), 1) else (0xFFFD, 0)
    | [] => (0xFFFD, 0)
  else if 0xE0 ≤ b && b ≤ 0xEF then
    match r with
    | b1 :: b2 :: _ =>
      if cont3Ok b b1 && contOk b2 then
        ((b - 0xE0) * 4096 + (b1 - 0x80) * 64 + (b2 - 0x80), 2)
      else (0xFFFD, 0)
    | _ => (0xFFFD, 0)
  else (0xFFFD, 0)

/-- Decoding loop with explicit fuel (the fuel is only a structural
termination device: one byte at least is consumed per step, so
`s.length` steps always suffice and the `0` case is unreachable from
`utf8Runes`; structural recursion keeps the definition reducible in the
kernel). -/
def utf8RunesAux : Nat → GoStr → List Nat
  | 0, _ => []
  | _ + 1, [] => []
  | n + 1, b :: r =>
    let p := decodeOne b r
    p.1 :: utf8RunesAux n (r.drop p.2)

/-- Decode a byte list to code points with Go `[]rune(string)` semantics. -/
def utf8Runes (s : GoStr) : List Nat :=
  utf8RunesAux s.length s

/-- Unicode simple lowercase on the code points this engine manipulates
(ASCII plus the Pali/Sanskrit diacritic letters appearing in
`dictionary.go`); models `unicode.ToLower`. -/
def lowerRune (c : Nat) : Nat :=
  if 65 ≤ c && c ≤ 90 then c + 32
  else if c = 0x100 then 0x101   -- Ā → ā
  else if c = 0x12A then 0x12B   -- Ī → ī
  else if c = 0x16A then 0x16B   -- Ū → ū
  else if c = 0x1E6C then 0x1E6D -- Ṭ → ṭ
  else if c = 0x1E0C then 0x1E0D -- Ḍ → ḍ
  else if c = 0x1E44 then 0x1E45 -- Ṅ → ṅ
  else if c = 0x1E46 then 0x1E47 -- Ṇ → ṇ
  else if c = 0x1E42 then 0x1E43 -- Ṃ → ṃ
  else if c = 0x1E40 then 0x1E41 -- Ṁ → ṁ
  else if c = 0xD1 then 0xF1     -- Ñ → ñ
  else if c = 0x1E36 then 0x1E37 -- Ḷ → ḷ
  else if c = 0x1E38 then 0x1E39 -- Ḹ → ḹ
  else if c = 0x1E5A then 0x1E5B -- Ṛ → ṛ
  else if c = 0x1E5C then 0x1E5D -- Ṝ → ṝ
  else if c = 0x1E62 then 0x1E63 -- Ṣ → ṣ
  else if c = 0x15A then 0x15B   -- Ś → ś
  else if c = 0x1E24 then 0x1E25 -- Ḥ → ḥ
  else c

/-- Go `strings.ToLower`: decode, lowercase each rune, re-encode
(invalid bytes become U+FFFD, as Go `strings.Map` does). -/
def goLower (s : GoStr) : GoStr :=
  utf8EncodeAll ((utf8Runes s).map lowerRune)

/-- Find the first pattern of `ps` (in argument order) that is a non-empty
prefix of `s`, as Go `strings.NewReplacer` resolves matches at a position. -/
def findPat (ps : List (GoStr × GoStr)) (s : GoStr) : Option (GoStr × GoStr) :=
  ps.find? (fun p => !p.1.isEmpty && p.1.isPrefixOf s)

/-- Replacement loop with explicit fuel (again only a structural
termination device: every step consumes at least one byte, since
`findPat` only returns non-empty patterns, so `s.length` steps suffice). -/
def replaceMultiAux (ps : List (GoStr × GoStr)) : Nat → GoStr → GoStr
  | 0, s => s
  | _ + 1, [] => []
  | n + 1, b :: rest =>
    match findPat ps (b :: rest) with
    | some pr => pr.2 ++ replaceMultiAux ps n ((b :: rest).drop pr.1.length)
    | none => b :: replaceMultiAux ps n rest

/-- Multi-pattern literal replacement: scan left to right; at each position
replace the first matching pattern and continue after the match, else copy
one byte.  Models Go `strings.NewReplacer(...).Replace` (argument-order
priority) and, for singleton pattern lists, `strings.ReplaceAll`. -/
def replaceMulti (ps : List (GoStr × GoStr)) (s : GoStr) : GoStr :=
  replaceMultiAux ps s.length s

/-- Go `strings.ReplaceAll old new s` (for non-empty `old`). -/
def replaceAll (old new s : GoStr) : GoStr :=
  replaceMulti [(old, new)] s

/-- The replacement table of `toVelthuis` (source lines 282-294), in
argument order. -/
def velthuisPairs : List (GoStr × GoStr) :=
  [(goStr "ā", goStr "aa"), (goStr "ī", goStr "ii"), (goStr "ū", goStr "uu"),
   (goStr "ṭ", goStr ".t"), (goStr "ḍ", goStr ".d"), (goStr "ṅ", [34, 110]),
   (goStr "ṇ", goStr ".n"), (goStr "ṃ", goStr ".m"), (goStr "ṁ", goStr ".m"),
   (goStr "ñ", goStr "~n"), (goStr "ḷ", goStr ".l"),
   (goStr "Ā", goStr "AA"), (goStr "Ī", goStr "II"), (goStr "Ū", goStr "UU"),
   (goStr "Ṭ", goStr ".T"), (goStr "Ḍ", goStr ".D"), (goStr "Ṅ", [34, 78]),
   (goStr "Ṇ", goStr ".N"), (goStr "Ṃ", goStr ".M"), (goStr "Ṁ", goStr ".M"),
   (goStr "Ñ", goStr "~N"), (goStr "Ḷ", goStr ".L"),
   (goStr "ḹ", goStr ".ll"), (goStr "ṛ", goStr ".r"), (goStr "ṝ", goStr ".rr"),
   (goStr "ṣ", goStr ".s"), (goStr "ś", [34, 115]), (goStr "ḥ", goStr ".h")]

/-- `toVelthuis`: convert Unicode Pali text to Velthuis notation. -/
def toVelthuis (input : GoStr) : GoStr :=
  if input = [] then input else replaceMulti velthuisPairs input

/-- The diacritic code points of the regex in `hasUnicodeChars`
(`[āīūṭḍṅṇṃṁñḷĀĪŪṬḌṄṆṂṀÑḶ]`). -/
def unicodePaliRunes : List Nat :=
  [0x101, 0x12B, 0x16B, 0x1E6D, 0x1E0D, 0x1E45, 0x1E47, 0x1E43, 0x1E41,
   0xF1, 0x1E37,
   0x100, 0x12A, 0x16A, 0x1E6C, 0x1E0C, 0x1E44, 0x1E46, 0x1E42, 0x1E40,
   0xD1, 0x1E36]

/-- `hasUnicodeChars`: does the string contain a Pali diacritic rune? -/
def hasUnicodeChars (s : GoStr) : Bool :=
  (utf8Runes s).any (fun c => unicodePaliRunes.contains c)

/-- The replacement table of `normalizeWord` (source lines 365-372). -/
def normalizePairs : List (GoStr × GoStr) :=
  [(goStr "ā", goStr "a"), (goStr "ī", goStr "i"), (goStr "ū", goStr "u"),
   (goStr "ṭ", goStr "t"), (goStr "ḍ", goStr "d"), (goStr "ṇ", goStr "n"),
   (goStr "ṅ", goStr "n"), (goStr "ñ", goStr "n"), (goStr "ṃ", goStr "m"),
   (goStr "ṁ", goStr "m"), (goStr "ḷ", goStr "l"),
   (goStr "aa", goStr "a"), (goStr "ii", goStr "i"), (goStr "uu", goStr "u")]

/-- `normalizeWord`: lowercase, then strip diacritics to ASCII. -/
def normalizeWord (word : GoStr) : GoStr :=
  replaceMulti normalizePairs (goLower word)

/-- Replacement pairs for the regex `\.([tdnlmTDNLM])` → `$1`. -/
def dotPairs : List (GoStr × GoStr) :=
  [(goStr ".t", goStr "t"), (goStr ".d", goStr "d"), (goStr ".n", goStr "n"),
   (goStr ".l", goStr "l"), (goStr ".m", goStr "m"),
   (goStr ".T", goStr "T"), (goStr ".D", goStr "D"), (goStr ".N", goStr "N"),
   (goStr ".L", goStr "L"), (goStr ".M", goStr "M")]

/-- Replacement pairs for the regex `~([nN])` → `$1`. -/
def tildePairs : List (GoStr × GoStr) :=
  [(goStr "~n", goStr "n"), (goStr "~N", goStr "N")]

/-- Replacement pairs for the regex `"([nN])` → `$1`. -/
def quotePairs : List (GoStr × GoStr) :=
  [([34, 110], goStr "n"), ([34, 78], goStr "N")]

/-- The stop consonants of the cluster regex `([kgcjtdpb])[kgcjtdpb]?h?`,
as bytes. -/
def isStopB (b : Nat) : Bool :=
  b = 107 || b = 103 || b = 99 || b = 106 || b = 116 || b = 100 ||
  b = 112 || b = 98

/-- After a leading stop consonant has matched, greedily consume an
optional second stop and an optional `h` (the rest of one regex match). -/
def skipCluster : GoStr → GoStr
  | [] => []
  | c :: r =>
    if isStopB c then
      match r with
      | c2 :: r2 => if c2 = 104 then r2 else c2 :: r2
      | [] => []
    else if c = 104 then r
    else c :: r

theorem skipCluster_length_le (l : GoStr) : (skipCluster l).length ≤ l.length := by
  rcases l with _ | ⟨c, r⟩
  · simp [skipCluster]
  · rcases r with _ | ⟨c2, r2⟩ <;>
      · simp only [skipCluster]
        split <;> try split
        all_goals simp <;> omega

/-- Cluster-folding loop with explicit fuel (a structural termination
device as above: `skipCluster` never lengthens its input, so `s.length`
steps suffice). -/
def stopFoldAux : Nat → GoStr → GoStr
  | 0, s => s
  | _ + 1, [] => []
  | n + 1, b :: rest =>
    if isStopB b then b :: stopFoldAux n (skipCluster rest)
    else b :: stopFoldAux n rest

/-- One pass of `regexp.MustCompile("([kgcjtdpb])[kgcjtdpb]?h?").
ReplaceAllString(w, "$1")`: each leftmost match of a stop consonant plus
an optional stop and optional `h` is replaced by its first character. -/
def stopFold (s : GoStr) : GoStr :=
  stopFoldAux s.length s

/-- `toFuzzy`: lossy fold for loose matching (source lines 328-356). -/
def toFuzzy (input : GoStr) : GoStr :=
  if input = [] then input else
  let w := toVelthuis (goLower input)
  let w := replaceMulti dotPairs w
  let w := replaceMulti tildePairs w
  let w := replaceMulti quotePairs w
  let w := replaceAll (goStr "aa") (goStr "a") w
  let w := replaceAll (goStr "ii") (goStr "i") w
  let w := replaceAll (goStr "uu") (goStr "u") w
  let w := replaceAll (goStr "nn") (goStr "n") w
  let w := replaceAll (goStr "mm") (goStr "m") w
  let w := replaceAll (goStr "yy") (goStr "y") w
  let w := replaceAll (goStr "ll") (goStr "l") w
  let w := replaceAll (goStr "ss") (goStr "s") w
  stopFold w

/-- A dictionary entry as constructed by `LookupPEDWithOptions` (the
fields that matching and ranking consult; `Definition`, `Source` and `ID`
play no role in the claims). -/
structure DictEntry where
  word : GoStr
  wordNorm : GoStr
deriving DecidableEq, Repr

/-- Go `strings.Contains s sub`. -/
def goContains (s sub : GoStr) : Bool :=
  match s with
  | [] => sub.isEmpty
  | b :: rest => sub.isPrefixOf (b :: rest) || goContains rest sub

/-- `matchesQuery`: exact, prefix, or (unless `startsWithOnly`) substring
match. -/
def matchesQuery (word query : GoStr) (startsWithOnly : Bool) : Bool :=
  if word = query then true
  else if query.isPrefixOf word then true
  else if !startsWithOnly && goContains word query then true
  else false

/-- The normalized query used by `sortResultsByRelevance`. -/
def queryNormFor (query : GoStr) (fuzzy : Bool) : GoStr :=
  if fuzzy then toFuzzy query else normalizeWord query

/-- The normalized form of an entry used by `sortResultsByRelevance`. -/
def entryNormFor (fuzzy : Bool) (e : DictEntry) : GoStr :=
  if fuzzy then toFuzzy e.word else e.wordNorm

/-- Lexicographic byte comparison, Go `string <`. -/
def listLtB : GoStr → GoStr → Bool
  | [], [] => false
  | [], _ :: _ => true
  | _ :: _, [] => false
  | a :: as, b :: bs => if a < b then true else if b < a then false else listLtB as bs

/-- The `less` closure of `sortResultsByRelevance` (source lines 408-432):
exact match first, then prefix match, then alphabetical. -/
def dprLess (qn : GoStr) (fuzzy : Bool) (a b : DictEntry) : Bool :=
  let iN := entryNormFor fuzzy a
  let jN := entryNormFor fuzzy b
  let iE : Bool := iN = qn
  let jE : Bool := jN = qn
  if iE != jE then iE
  else
    let iP : Bool := qn.isPrefixOf iN
    let jP : Bool := qn.isPrefixOf jN
    if iP != jP then iP
    else listLtB iN jN

/-- `sortResultsByRelevance`: `sort.Slice` leaves the list ordered so that
no later element is `less` than an earlier one; we realize that contract
with an insertion sort under the complement relation. -/
def sortResultsByRelevance (results : List DictEntry) (query : GoStr)
    (fuzzy : Bool) : List DictEntry :=
  List.insertionSort
    (fun a b => dprLess (queryNormFor query fuzzy) fuzzy b a = false) results

/-- The comparison an entry word is put through before `matchesQuery`
(source lines 93-102). -/
def mkMatchWord (fuzzy qU : Bool) (hw : GoStr) : GoStr :=
  if fuzzy then toFuzzy hw
  else if qU then goLower hw
  else goLower (toVelthuis hw)

/-- The matching loop of `LookupPEDWithOptions` over the extracted
headwords of all volumes (volume loading and headword extraction read
data files, so the extracted headwords are the parameter `D`; entries
whose extraction failed are the empty string and are skipped). -/
def matchingEntries (D : List GoStr) (query : GoStr) (fuzzy sw : Bool) :
    List DictEntry :=
  let ql := goLower query
  let qU := hasUnicodeChars ql
  let mq := if fuzzy then toFuzzy ql else ql
  D.filterMap (fun hw =>
    if hw = [] then none
    else if matchesQuery (mkMatchWord fuzzy qU hw) mq sw then
      some ⟨hw, normalizeWord hw⟩
    else none)

/-- `LookupPEDWithOptions`: match then rank.  (The cache layer only
memoizes the same computation and is dropped.) -/
def lookupPED (D : List GoStr) (query : GoStr) (fuzzy sw : Bool) :
    List DictEntry :=
  sortResultsByRelevance (matchingEntries D query fuzzy sw) query fuzzy

/-- Did `LookupPED` (no options) find at least one entry? -/
def hitPED (D : List GoStr) (q : GoStr) : Bool :=
  !(lookupPED D q false false).isEmpty

/-- The `Lookup` HTTP handler guard (handlers/dictionary.go lines 22-27):
an exactly-empty `q` is rejected with a 400 error before any lookup. -/
def handlerLookup (D : List GoStr) (q : GoStr) (fuzzy sw : Bool) :
    Except GoStr (List DictEntry) :=
  if q = [] then Except.error (goStr "Missing query parameter q")
  else Except.ok (lookupPED D q fuzzy sw)

/-- A component of a compound word (`wordPart` in the source). -/
structure WordPart where
  original : GoStr
  base : GoStr
deriving DecidableEq, Repr

/-- The key/value pairs of the map `paliParticles` (source lines 516-530),
in source-listing order.  Go gives the map no iteration order, so the
functions below take the scan order as a parameter; a legitimate run of
the program may scan these pairs in any permutation of this list. -/
def paliParticlesList : List (GoStr × GoStr) :=
  [(goStr "ca", goStr "ca"), (goStr "pi", goStr "pi"),
   (goStr "eva", goStr "eva"), (goStr "kho", goStr "kho"),
   (goStr "pana", goStr "pana"), (goStr "hi", goStr "hi"),
   (goStr "tu", goStr "tu"), (goStr "va", goStr "vā"),
   (goStr "ti", goStr "ti"), (goStr "ce", goStr "ce"),
   (goStr "ve", goStr "ve"), (goStr "nu", goStr "nu"),
   (goStr "su", goStr "su")]

/-- Go `strings.CutSuffix`. -/
def cutSuffix (s suf : GoStr) : Option GoStr :=
  if suf.isSuffixOf s then some (s.take (s.length - suf.length)) else none

/-- One iteration of the particle loop of `breakDownWord` (source lines
722-745) for the pair `p` = (suffix, base): try niggahita sandhi, then
doubled-initial-consonant sandhi (skipped when the first byte of the
particle is `a`, `i` or `u`), then a plain suffix match (only when the
word is more than `len(suffix)+2` bytes long).  Returns the shortened
word and the peeled particle, or `none` when no pattern fires. -/
def tryParticle (word : GoStr) (p : GoStr × GoStr) : Option (GoStr × WordPart) :=
  let suffix := p.1
  let base := p.2
  match cutSuffix word (goStr "ñ" ++ suffix) with
  | some before => some (before ++ goStr "ṃ", ⟨suffix, base⟩)
  | none =>
    if 0 < suffix.length &&
        (cutSuffix word (suffix.take 1 ++ suffix)).isSome &&
        !(suffix.headD 0 = 97 || suffix.headD 0 = 105 || suffix.headD 0 = 117) then
      some ((cutSuffix word (suffix.take 1 ++ suffix)).getD [], ⟨suffix, base⟩)
    else if (cutSuffix word suffix).isSome && suffix.length + 2 < word.length then
      some ((cutSuffix word suffix).getD [], ⟨suffix, base⟩)
    else none

/-- The particle loop: scan the pairs in the given order; the first
particle for which a pattern fires is peeled and the loop breaks, so at
most one trailing particle is removed. -/
def particleStrip (order : List (GoStr × GoStr)) (word : GoStr) :
    GoStr × List WordPart :=
  match order with
  | [] => (word, [])
  | p :: rest =>
    match tryParticle word p with
    | some (rem, part) => (rem, [part])
    | none => particleStrip rest word

/-- The table `paliNounEndings` (source lines 535-587), in source order. -/
def paliNounEndings : List (GoStr × List GoStr) :=
  [(goStr "ato", [goStr "ant", goStr "at", goStr "a"]),
   (goStr "atā", [goStr "ant", goStr "at", goStr "a"]),
   (goStr "antaṃ", [goStr "ant", goStr "at", goStr "a"]),
   (goStr "ante", [goStr "ant", goStr "at", goStr "a"]),
   (goStr "anto", [goStr "ant", goStr "at", goStr "a"]),
   (goStr "antānaṃ", [goStr "ant", goStr "at", []]),
   (goStr "antehi", [goStr "ant", goStr "at", []]),
   (goStr "antesu", [goStr "ant", goStr "at", []]),
   (goStr "assa", [goStr "a", []]),
   (goStr "āya", [goStr "a", goStr "ā"]),
   (goStr "asmā", [goStr "a", []]),
   (goStr "amhā", [goStr "a", []]),
   (goStr "asmiṃ", [goStr "a", []]),
   (goStr "amhi", [goStr "a", []]),
   (goStr "ānaṃ", [goStr "a", goStr "ā"]),
   (goStr "ehi", [goStr "a", []]),
   (goStr "ebhi", [goStr "a", []]),
   (goStr "esu", [goStr "a", []]),
   (goStr "ena", [goStr "a", []]),
   (goStr "aṃ", [goStr "a", []]),
   (goStr "āni", [goStr "a", goStr "aṃ"]),
   (goStr "ā", [goStr "a", []]),
   (goStr "e", [goStr "a", goStr "i"]),
   (goStr "o", [goStr "a", []]),
   (goStr "ino", [goStr "i", goStr "in"]),
   (goStr "inaṃ", [goStr "i", goStr "in"]),
   (goStr "inā", [goStr "i", goStr "in"]),
   (goStr "īnaṃ", [goStr "i", goStr "in"]),
   (goStr "īhi", [goStr "i", goStr "in"]),
   (goStr "īsu", [goStr "i", goStr "in"]),
   (goStr "ismiṃ", [goStr "i", []]),
   (goStr "imhi", [goStr "i", []]),
   (goStr "ī", [goStr "i", goStr "in"]),
   (goStr "uno", [goStr "u", []]),
   (goStr "unaṃ", [goStr "u", []]),
   (goStr "unā", [goStr "u", []]),
   (goStr "ūnaṃ", [goStr "u", []]),
   (goStr "ūhi", [goStr "u", []]),
   (goStr "ūsu", [goStr "u", []]),
   (goStr "usmiṃ", [goStr "u", []]),
   (goStr "umhi", [goStr "u", []])]

/-- `getStemCandidates`: the lowercased word first, then for every table
ending the word carries (with a stem of at least 2 bytes left), each
candidate stem+extension not already present, in table order. -/
def getStemCandidates (word : GoStr) : List GoStr :=
  let w := goLower word
  paliNounEndings.foldl (fun cands e =>
    if e.1.isSuffixOf w then
      let stem := w.take (w.length - e.1.length)
      if 2 ≤ stem.length then
        e.2.foldl (fun cs add =>
          let c := stem ++ add
          if cs.contains c then cs else cs ++ [c]) cands
      else cands
    else cands) [w]

/-- The vowel runes of `isValidSplitPoint` (`"aāiīuūeo"`). -/
def isVowelRune (c : Nat) : Bool :=
  c = 97 || c = 0x101 || c = 105 || c = 0x12B || c = 117 || c = 0x16B ||
  c = 101 || c = 111

/-- `isValidSplitPoint`: note that `i` is a byte index into `word` in the
caller but is used as a rune index here, exactly as in the source. -/
def isValidSplitPoint (word : GoStr) (i : Nat) : Bool :=
  if i = 0 || word.length ≤ i then false
  else
    let runes := utf8Runes word
    if runes.length ≤ i then false
    else isVowelRune (runes.getD (i - 1) 0) || isVowelRune (runes.getD i 0)

/-- The consonant runes of `generateSandhiCandidates`
(`"kgcjṭḍtdpbmnyrlvsh"`). -/
def consonantRunes : List Nat :=
  [107, 103, 99, 106, 0x1E6D, 0x1E0D, 116, 100, 112, 98, 109, 110, 121,
   114, 108, 118, 115, 104]

/-- The long-vowel map of `generateSandhiCandidates`
(`ā`→`a`, `ī`→`i`, `ū`→`u`). -/
def longVowelShort (c : Nat) : Option Nat :=
  if c = 0x101 then some 97
  else if c = 0x12B then some 105
  else if c = 0x16B then some 117
  else none

/-- `generateSandhiCandidates`: the identity split, then the sandhi
restorations, in source order (long-vowel shortening, long-vowel
prepending, final `o` to `a`, dropped doubled consonant). -/
def generateSandhiCandidates (first second : GoStr) :
    List (WordPart × WordPart) :=
  let idc : WordPart × WordPart := (⟨first, first⟩, ⟨second, second⟩)
  if 0 < first.length && 0 < second.length then
    let firstRunes := utf8Runes first
    let secondRunes := utf8Runes second
    let lastChar := firstRunes.getD (firstRunes.length - 1) 0
    let firstChar := secondRunes.getD 0 0
    let longV : List (WordPart × WordPart) :=
      match longVowelShort lastChar with
      | some short =>
        [(⟨first, utf8EncodeAll firstRunes.dropLast ++ utf8Encode short⟩,
          ⟨second, second⟩),
         (⟨first, first⟩, ⟨second, utf8Encode lastChar ++ second⟩)]
      | none => []
    let oCase : List (WordPart × WordPart) :=
      if lastChar = 111 then
        [(⟨first, utf8EncodeAll firstRunes.dropLast ++ goStr "a"⟩,
          ⟨second, second⟩)]
      else []
    let doubling : List (WordPart × WordPart) :=
      if consonantRunes.contains firstChar && 0 < firstRunes.length &&
          firstRunes.getD (firstRunes.length - 1) 0 = firstChar then
        [(⟨first, utf8EncodeAll firstRunes.dropLast⟩, ⟨second, second⟩)]
      else []
    idc :: (longV ++ oCase ++ doubling)
  else [idc]

/-- The score of one candidate split: +10 per side whose restored base
form has at least one dictionary hit. -/
def candScore (D : List GoStr) (c : WordPart × WordPart) : Nat :=
  (if hitPED D c.1.base then 10 else 0) + (if hitPED D c.2.base then 10 else 0)

/-- The split search of `findCompoundBreaks` (source lines 762-795): for
every byte offset `i` in `[2, len(word)-2]` that is a valid split point,
score every sandhi candidate of `(word[:i], word[i:])`; keep the first
strictly-best candidate. -/
def bestSplitFor (D : List GoStr) (word : GoStr) : Nat × List WordPart :=
  (List.range' 2 (word.length - 3)).foldl (fun best i =>
    if isValidSplitPoint word i then
      (generateSandhiCandidates (word.take i) (word.drop i)).foldl
        (fun b c => if b.1 < candScore D c then (candScore D c, [c.1, c.2]) else b)
        best
    else best) (0, [⟨word, word⟩])

/-- `findCompoundBreaks`, with explicit fuel: the Go function recurses on
`bestSplit[1].base` with no structural bound, so the embedding returns
`none` when the recursion exceeds the given depth. -/
def findCompoundBreaks (D : List GoStr) : Nat → GoStr → Option (List WordPart)
  | 0, _ => none
  | fuel + 1, word =>
    if word.length < 4 then some [⟨word, word⟩]
    else
      let best := bestSplitFor D word
      if 0 < best.1 && best.2.length = 2 then
        match findCompoundBreaks D fuel ((best.2.getD 1 ⟨[], []⟩).base) with
        | none => none
        | some secondBreaks =>
          if 1 < secondBreaks.length then
            some (best.2.headD ⟨[], []⟩ :: secondBreaks)
          else some best.2
      else some best.2

/-- `breakDownWord`: lowercase, peel at most one trailing particle
(scanning the particle pairs in the given `order`), split the remainder,
and append the particle part. -/
def breakDownWord (D : List GoStr) (order : List (GoStr × GoStr))
    (fuel : Nat) (word : GoStr) : Option (List WordPart) :=
  let w := goLower word
  let sp := particleStrip order w
  match findCompoundBreaks D fuel sp.1 with
  | none => none
  | some mainParts => some (mainParts ++ sp.2)

/-- A `CompoundPart` of the lookup response. -/
structure CompoundPart where
  word : GoStr
  base : GoStr
  results : List DictEntry
deriving DecidableEq, Repr

/-- The `DictLookupResponse` fields that `AnalyzeCompound` populates. -/
structure DictLookupResponse where
  query : GoStr
  results : List DictEntry
  isCompound : Bool
  breakdown : List CompoundPart
deriving DecidableEq, Repr

/-- Go `strings.EqualFold`, which on the character repertoire of this
engine coincides with equality after `ToLower`. -/
def goEqualFold (a b : GoStr) : Bool := goLower a = goLower b

/-- The per-stem filter of `AnalyzeCompound` (source line 646). -/
def stemFilter (stem : GoStr) (rs : List DictEntry) : List DictEntry :=
  rs.filter (fun r =>
    goEqualFold r.word stem ||
    goEqualFold (normalizeWord r.word) (normalizeWord stem))

/-- The stemming loop of `AnalyzeCompound` (source lines 640-654): for
each candidate after the original word, run a startsWith-only lookup and
return the filtered results of the first stem for which the filter keeps
anything. -/
def stemSearch (D : List GoStr) : List GoStr → Option (List DictEntry)
  | [] => none
  | stem :: rest =>
    let sr := lookupPED D stem false true
    if sr.isEmpty then stemSearch D rest
    else
      let filtered := stemFilter stem sr
      if filtered.isEmpty then stemSearch D rest else some filtered

/-- `AnalyzeCompound`: direct lookup, else stemming, else compound
breakdown with per-part lookups and the compound-flag bookkeeping.
Returns `none` only when `findCompoundBreaks` runs out of fuel (the Go
original would still be recursing). -/
def analyzeCompound (D : List GoStr) (order : List (GoStr × GoStr))
    (fuel : Nat) (word : GoStr) : Option DictLookupResponse :=
  let direct := lookupPED D word false false
  if !direct.isEmpty then some ⟨word, direct, false, []⟩
  else
    match stemSearch D (getStemCandidates word).tail with
    | some rs => some ⟨word, rs, false, []⟩
    | none =>
      match breakDownWord D order fuel word with
      | none => none
      | some parts =>
        if parts.length ≤ 1 then some ⟨word, [], false, []⟩
        else
          let breakdown := parts.map (fun part =>
            let res := lookupPED D part.base false false
            let res :=
              if res.isEmpty && part.base ≠ part.original then
                lookupPED D part.original false false
              else res
            CompoundPart.mk part.original part.base res)
          let allHave := breakdown.all (fun c => !c.results.isEmpty)
          let foundAny := breakdown.any (fun c => !c.results.isEmpty)
          if !allHave && 0 < breakdown.length && !foundAny then
            some ⟨word, [], false, []⟩
          else some ⟨word, [], true, breakdown⟩

/-- A possible scan order of the particle map with `eva` first (Go map
iteration order is unspecified, so this order occurs in real runs). -/
def evaFirstOrder : List (GoStr × GoStr) :=
  (goStr "eva", goStr "eva") ::
    paliParticlesList.filter (fun p => p.1 ≠ goStr "eva")

/-- A possible scan order of the particle map with `va` first. -/
def vaFirstOrder : List (GoStr × GoStr) :=
  (goStr "va", goStr "vā") ::
    paliParticlesList.filter (fun p => p.1 ≠ goStr "va")

/-- Claim C10: the matcher imposes no minimum query length for substring
matches: whenever `startsWithOnly` is false and the (non-empty) query
occurs anywhere in the word, `matchesQuery` returns true — including
queries of length 1 or 2.  (The code in fact needs no non-emptiness
hypothesis.) -/
theorem claim_C10_no_min_query_length (w q : GoStr) (hq : q ≠ [])
    (hc : goContains w q = true) : matchesQuery w q false = true := by
  unfold matchesQuery
  split
  · rfl
  · split
    · rfl
    · simp [hc]

/-- Witness for C10 at the one-byte query `"a"` inside `"kha"`. -/
theorem claim_C10_witness :
    ((goStr "a" ≠ []) ∧ goContains (goStr "kha") (goStr "a") = true) ∧
      matchesQuery (goStr "kha") (goStr "a") false = true :=
  ⟨⟨by decide, by decide⟩,
    claim_C10_no_min_query_length (goStr "kha") (goStr "a") (by decide)
      (by decide)⟩

/-- Claim C2 fails on the code: `toFuzzy` is not idempotent.  A single
pass of `strings.ReplaceAll("aa","a")` rewrites non-overlapping pairs
only, so `"aaa"` (the Velthuis image of, e.g., `"āa"`) folds to `"aa"`,
which a second application folds further to `"a"`.  This theorem
evaluates the code at the failing input. -/
theorem claim_C2_fuzzy_not_idempotent :
    toFuzzy (goStr "aaa") = goStr "aa" ∧
    toFuzzy (toFuzzy (goStr "aaa")) = goStr "a" ∧
    toFuzzy (toFuzzy (goStr "aaa")) ≠ toFuzzy (goStr "aaa") := by
  refine ⟨by decide, by decide, by decide⟩

/-- Counterexample to claim C6 as stated: `getStemCandidates`
lowercases its argument first, so for the word `"A"` the first candidate
is `"a"`, not the word unchanged. -/
theorem claim_C6_counterexample :
    getStemCandidates (goStr "A") = [goStr "a"] ∧
    (getStemCandidates (goStr "A")).head? ≠ some (goStr "A") := by
  refine ⟨by decide, by decide⟩

theorem stemfold_inner_head (stem : GoStr) (exts : List GoStr) :
    ∀ cs : List GoStr, cs ≠ [] →
      (exts.foldl (fun cs add =>
          let c := stem ++ add
          if cs.contains c then cs else cs ++ [c]) cs).head? = cs.head? ∧
      (exts.foldl (fun cs add =>
          let c := stem ++ add
          if cs.contains c then cs else cs ++ [c]) cs) ≠ [] := by
  induction exts with
  | nil => intro cs h; exact ⟨rfl, h⟩
  | cons e es ih =>
    intro cs h
    simp only [List.foldl_cons]
    try dsimp only
    split
    · exact ih cs h
    · have h2 : (cs ++ [stem ++ e]).head? = cs.head? := by
        rcases cs with _ | ⟨x, xs⟩
        · exact absurd rfl h
        · simp
      have h3 := ih (cs ++ [stem ++ e]) (by simp)
      exact ⟨h3.1.trans h2, h3.2⟩

theorem stemfold_outer_head (ends : List (GoStr × List GoStr)) (w : GoStr) :
    ∀ cs : List GoStr, cs ≠ [] →
      (ends.foldl (fun cands e =>
          if e.1.isSuffixOf w then
            let stem := w.take (w.length - e.1.length)
            if 2 ≤ stem.length then
              e.2.foldl (fun cs add =>
                let c := stem ++ add
                if cs.contains c then cs else cs ++ [c]) cands
            else cands
          else cands) cs).head? = cs.head? ∧
      (ends.foldl (fun cands e =>
          if e.1.isSuffixOf w then
            let stem := w.take (w.length - e.1.length)
            if 2 ≤ stem.length then
              e.2.foldl (fun cs add =>
                let c := stem ++ add
                if cs.contains c then cs else cs ++ [c]) cands
            else cands
          else cands) cs) ≠ [] := by
  induction ends with
  | nil => intro cs h; exact ⟨rfl, h⟩
  | cons e es ih =>
    intro cs h
    simp only [List.foldl_cons]
    try dsimp only
    split
    · split
      · have hin := stemfold_inner_head (w.take (w.length - e.1.length)) e.2 cs h
        have hout := ih _ hin.2
        exact ⟨hout.1.trans hin.1, hout.2⟩
      · exact ih cs h
    · exact ih cs h

/-- Claim C6, amended: the first element of the stem-candidate list is
the lowercased word (so it is the word unchanged exactly when the word is
already lowercase); no ending step ever changes or removes it. -/
theorem claim_C6_head_is_lowercased_word (word : GoStr) :
    (getStemCandidates word).head? = some (goLower word) := by
  unfold getStemCandidates
  have h := stemfold_outer_head paliNounEndings (goLower word)
    [goLower word] (by simp)
  simpa using h.1

/-- Counterexample to claim C3 as stated: the all-whitespace query `" "`
is not rejected or short-circuited anywhere; it reaches substring
matching and, over a dictionary whose only headword is `"a b"`, the
lookup returns every dictionary entry (as a successful response, not an
error). -/
theorem claim_C3_counterexample :
    handlerLookup [goStr "a b"] (goStr " ") false false =
      Except.ok (([goStr "a b"] : List GoStr).map
        (fun hw => ⟨hw, normalizeWord hw⟩)) := by
  rfl

/-- Claim C3, amended: only the exactly-empty query is rejected, and only
by the HTTP handler, before matching; the engine itself never guards —
`matchesQuery` accepts the empty query against every word (the empty
string is a prefix of everything), so an empty query reaching the engine
matches the whole dictionary, and a blank (whitespace-only) query passes
the handler and reaches substring matching. -/
theorem claim_C3_empty_query_guard :
    (∀ (D : List GoStr) (fz sw : Bool),
        handlerLookup D [] fz sw =
          Except.error (goStr "Missing query parameter q")) ∧
    (∀ w : GoStr, matchesQuery w [] false = true) ∧
    (∀ (D : List GoStr) (fz sw : Bool),
        handlerLookup D (goStr " ") fz sw =
          Except.ok (lookupPED D (goStr " ") fz sw)) := by
  refine ⟨fun D fz sw => rfl, fun w => ?_, fun D fz sw => rfl⟩
  unfold matchesQuery
  split
  · rfl
  · split
    · rfl
    · rename_i h1 h2
      simp [List.isPrefixOf] at h2

/-- Counterexample to claim C8 as stated: `breakDownWord` strips the
plain trailing particle `"ca"` from `"abhica"` although the remaining
stem `"abhi"` (4 bytes) is not longer than the particle by more than two
characters (`len(w) - len(p) = 4`, `len(p) + 2 = 4`): the Go guard is
`len(word) > len(suffix)+2`, a condition on the whole word, not on the
stem relative to the particle. -/
theorem claim_C8_counterexample :
    breakDownWord [] paliParticlesList 16 (goStr "abhica") =
      some [⟨goStr "abhi", goStr "abhi"⟩, ⟨goStr "ca", goStr "ca"⟩] ∧
    ¬((goStr "abhica").length - (goStr "ca").length >
        (goStr "ca").length + 2) := by
  refine ⟨by decide, by decide⟩

/-- Claim C8, amended: a plain (non-liaison) trailing-particle suffix
match is accepted only when the word is longer than the particle by more
than two bytes — equivalently, the remaining stem is longer than two
bytes.  Stated over one particle-loop iteration: if the niggahita
pattern did not match and the doubled-initial pattern did not fire, a
successful strip implies `len(p) + 2 < len(word)`. -/
theorem claim_C8_plain_suffix_guard (word : GoStr) (p : GoStr × GoStr)
    (rem : GoStr) (part : WordPart)
    (h : tryParticle word p = some (rem, part))
    (hni : (goStr "ñ" ++ p.1).isSuffixOf word = false)
    (hdb : (0 < p.1.length &&
        (cutSuffix word (p.1.take 1 ++ p.1)).isSome &&
        !(p.1.headD 0 = 97 || p.1.headD 0 = 105 || p.1.headD 0 = 117)) = false) :
    p.1.length + 2 < word.length := by
  unfold tryParticle at h
  have hcut : cutSuffix word (goStr "ñ" ++ p.1) = none := by
    unfold cutSuffix
    rw [hni]
    rfl
  simp only [hcut] at h
  split at h
  · rename_i hcond
    rw [hdb] at hcond
    exact absurd hcond (by simp)
  · split at h
    · rename_i hcond2
      simp only [Bool.and_eq_true, decide_eq_true_eq] at hcond2
      exact hcond2.2
    · exact absurd h (by simp)

/-- Witness for C8 (amended): the strip of `"ca"` from `"abhica"` does
satisfy the byte-length guard `len(p) + 2 < len(word)`. -/
theorem claim_C8_witness :
    (goStr "ca", goStr "ca").1.length + 2 < (goStr "abhica").length :=
  claim_C8_plain_suffix_guard (goStr "abhica") (goStr "ca", goStr "ca")
    (goStr "abhi") ⟨goStr "ca", goStr "ca"⟩ (by decide) (by decide) (by decide)

/-- Counterexample to claim C7 as stated: `"eva"` is a particle whose
first character is the vowel `e`, yet `breakDownWord` (with a scan order
that reaches `"eva"` first, which the unordered Go map permits) strips
the doubled-initial form `"eeva"` from `"dhammeeva"`, leaving the stem
`"dhamm"` — both `e`s removed.  The Go guard `suffix[0] != 'a' && != 'i'
&& != 'u'` does not cover `e` (or `o`). -/
theorem claim_C7_counterexample :
    evaFirstOrder.Perm paliParticlesList ∧
    breakDownWord [] evaFirstOrder 16 (goStr "dhammeeva") =
      some [⟨goStr "dhamm", goStr "dhamm"⟩, ⟨goStr "eva", goStr "eva"⟩] := by
  refine ⟨by decide, by decide⟩

/-- Claim C7, amended: the doubled-initial-consonant liaison is skipped
only for particles whose first byte is `a`, `i` or `u`.  For such a
particle (and a word that does not end in the niggahita pattern), any
successful strip is the plain suffix strip: the word is cut by the bare
particle only, so a doubled-initial form is never stripped for them. -/
theorem claim_C7_aiu_initial_never_doubled (word s b rem : GoStr)
    (part : WordPart)
    (h : tryParticle word (s, b) = some (rem, part))
    (hv : s.headD 0 = 97 ∨ s.headD 0 = 105 ∨ s.headD 0 = 117)
    (hni : (goStr "ñ" ++ s).isSuffixOf word = false) :
    cutSuffix word s = some rem ∧ part = ⟨s, b⟩ ∧
      s.length + 2 < word.length := by
  unfold tryParticle at h
  have hcut : cutSuffix word (goStr "ñ" ++ s) = none := by
    unfold cutSuffix
    rw [hni]
    rfl
  simp only [hcut] at h
  split at h
  · rename_i hcond
    simp only [Bool.and_eq_true, Bool.not_eq_true', Bool.or_eq_false_iff,
      decide_eq_false_iff_not, decide_eq_true_eq] at hcond
    rcases hv with hv | hv | hv <;>
      exact absurd hv (by tauto)
  · split at h
    · rename_i hcond2
      simp only [Bool.and_eq_true, Option.isSome_iff_exists,
        decide_eq_true_eq] at hcond2
      obtain ⟨⟨x, hx⟩, hlen⟩ := hcond2
      rw [hx] at h
      simp only [Option.getD_some, Option.some_inj, Prod.mk.injEq] at h
      exact ⟨by rw [hx, h.1], h.2.symm, hlen⟩
    · exact absurd h (by simp)

/-- Witness for C7 (amended) at the hypothetical `i`-initial particle
`"iti"` on the word `"dhamiiti"` (which ends in the doubled form
`"iiti"`): the strip that happens is the plain one, leaving `"dhami"`. -/
theorem claim_C7_witness :
    cutSuffix (goStr "dhamiiti") (goStr "iti") = some (goStr "dhami") ∧
      (⟨goStr "iti", goStr "iti"⟩ : WordPart) = ⟨goStr "iti", goStr "iti"⟩ ∧
      (goStr "iti").length + 2 < (goStr "dhamiiti").length :=
  claim_C7_aiu_initial_never_doubled (goStr "dhamiiti") (goStr "iti")
    (goStr "iti") (goStr "dhami") ⟨goStr "iti", goStr "iti"⟩
    (by decide) (by decide) (by decide)

/-- Claim C4 fails on the code: the particle table is a Go map, whose
iteration order is unspecified and varies between evaluations in the
same process.  Both orders below are permutations of the table; scanning
`"eva"` first peels `eva` from `"gacchateva"`, scanning `"va"` first
peels `vā` — two evaluations of decompose can return different part
lists.  This theorem evaluates the code at the failing input under the
two orders. -/
theorem claim_C4_particle_order_nondeterministic :
    evaFirstOrder.Perm paliParticlesList ∧
    vaFirstOrder.Perm paliParticlesList ∧
    breakDownWord [] evaFirstOrder 16 (goStr "gacchateva") =
      some [⟨goStr "gacchat", goStr "gacchat"⟩, ⟨goStr "eva", goStr "eva"⟩] ∧
    breakDownWord [] vaFirstOrder 16 (goStr "gacchateva") =
      some [⟨goStr "gacchate", goStr "gacchate"⟩, ⟨goStr "va", goStr "vā"⟩] ∧
    breakDownWord [] evaFirstOrder 16 (goStr "gacchateva") ≠
      breakDownWord [] vaFirstOrder 16 (goStr "gacchateva") := by
  refine ⟨by decide, by decide, by decide, by decide, by decide⟩

/-- One step of `findCompoundBreaks` on `"āṛa"` over the dictionary whose
only headword is `"āṛa"`: the winning candidate (score 20) is the
long-vowel-prepending sandhi restoration at byte offset 2, whose right
part's restored base is the whole word `"āṛa"` again.  (The identity
candidate only scores 10 because the right part `"ṛa"` is matched in
Velthuis mode — `ṛ` is not in `hasUnicodeChars` — where the headword
converts to `"aa.ra"` and misses.) -/
theorem bestSplit_arara :
    bestSplitFor [goStr "āṛa"] (goStr "āṛa") =
      (20, [⟨goStr "ā", goStr "ā"⟩, ⟨goStr "ṛa", goStr "āṛa"⟩]) := by
  decide

theorem findCompoundBreaks_arara_none :
    ∀ fuel, findCompoundBreaks [goStr "āṛa"] fuel (goStr "āṛa") = none := by
  intro fuel
  induction fuel with
  | zero => rfl
  | succ n ih =>
    have hstep : findCompoundBreaks [goStr "āṛa"] (n + 1) (goStr "āṛa") =
        match findCompoundBreaks [goStr "āṛa"] n (goStr "āṛa") with
        | none => none
        | some secondBreaks =>
          if 1 < secondBreaks.length then
            some (⟨goStr "ā", goStr "ā"⟩ :: secondBreaks)
          else some [⟨goStr "ā", goStr "ā"⟩, ⟨goStr "ṛa", goStr "āṛa"⟩] := by
      rfl
    rw [hstep, ih]

theorem breakDownWord_arakkho_none :
    ∀ fuel,
      breakDownWord [goStr "āṛa"] paliParticlesList fuel (goStr "āṛakkho") =
        none := by
  intro fuel
  show (match findCompoundBreaks [goStr "āṛa"] fuel (goStr "āṛa") with
        | none => none
        | some mainParts =>
            some (mainParts ++ [(⟨goStr "kho", goStr "kho"⟩ : WordPart)])) =
      none
  rw [findCompoundBreaks_arara_none fuel]

/-- Claim C1 fails on the code: compound decomposition does not terminate
for every input.  Over a dictionary whose only headword is `"āṛa"`,
`findCompoundBreaks("āṛa")` picks a best split whose right part's
restored base form is `"āṛa"` itself — the recursion argument does not
shrink — so the Go recursion never returns (in the embedding: it returns
no answer for any amount of fuel).  The state is reachable:
`AnalyzeCompound("āṛakkho")` finds no direct or stemmed hit, strips the
doubled particle `kkho`, and then calls `findCompoundBreaks("āṛa")`. -/
theorem claim_C1_decompose_diverges :
    ∀ fuel,
      findCompoundBreaks [goStr "āṛa"] fuel (goStr "āṛa") = none ∧
      analyzeCompound [goStr "āṛa"] paliParticlesList fuel (goStr "āṛakkho") =
        none := by
  intro fuel
  refine ⟨findCompoundBreaks_arara_none fuel, ?_⟩
  unfold analyzeCompound
  have hdirect :
      lookupPED [goStr "āṛa"] (goStr "āṛakkho") false false = [] := by decide
  have hstems :
      stemSearch [goStr "āṛa"] (getStemCandidates (goStr "āṛakkho")).tail =
        none := by decide
  rw [hdirect, hstems, breakDownWord_arakkho_none fuel]
  rfl

theorem all_imp_any_results (l : List CompoundPart) (h2 : 2 ≤ l.length)
    (hcl : (!(l.all fun c => !c.results.isEmpty) && decide (0 < l.length) &&
        !(l.any fun c => !c.results.isEmpty)) = false) :
    (l.any fun c => !c.results.isEmpty) = true := by
  rcases ha : (l.any fun c => !c.results.isEmpty) with _ | _
  case true => rfl
  case false =>
    exfalso
    rcases hb : (l.all fun c => !c.results.isEmpty) with _ | _
    case false =>
      rw [ha, hb] at hcl
      have h0 : decide (0 < l.length) = true := by
        simp only [decide_eq_true_eq]
        omega
      rw [h0] at hcl
      simp at hcl
    case true =>
      rcases l with _ | ⟨c0, cs⟩
      · simp at h2
      · have hc0 := (List.all_eq_true.mp hb) c0 (by simp)
        have hany : ((c0 :: cs).any fun c => !c.results.isEmpty) = true :=
          List.any_eq_true.mpr ⟨c0, by simp, hc0⟩
        rw [hany] at ha
        exact absurd ha (by simp)

theorem c9_final_branch (word : GoStr) (bd : List CompoundPart)
    (resp : DictLookupResponse) (h2 : 2 ≤ bd.length)
    (h : (if (!(bd.all fun c => !c.results.isEmpty) &&
            decide (0 < bd.length) &&
            !(bd.any fun c => !c.results.isEmpty)) = true then
          some (⟨word, [], false, []⟩ : DictLookupResponse)
        else some ⟨word, [], true, bd⟩) = some resp) :
    resp.isCompound = true ↔
      2 ≤ resp.breakdown.length ∧
        resp.breakdown.any (fun c => !c.results.isEmpty) = true := by
  split at h
  · injection h with h
    subst h
    simp
  · rename_i hcond
    injection h with h
    subst h
    constructor
    · intro _
      exact ⟨h2, all_imp_any_results bd h2 (Bool.eq_false_iff.mpr hcond)⟩
    · intro _
      rfl

/-- Claim C9: in any response `AnalyzeCompound` returns, `isCompound` is
true exactly when the breakdown is non-trivial (at least two parts) and
at least one part produced at least one dictionary hit; when no part is
attested the flag is cleared and the breakdown discarded, and the
response is a plain no-result value (never an error). -/
theorem claim_C9_isCompound_iff (D : List GoStr)
    (order : List (GoStr × GoStr)) (fuel : Nat) (word : GoStr)
    (resp : DictLookupResponse)
    (h : analyzeCompound D order fuel word = some resp) :
    resp.isCompound = true ↔
      2 ≤ resp.breakdown.length ∧
        resp.breakdown.any (fun c => !c.results.isEmpty) = true := by
  unfold analyzeCompound at h
  rcases hd : lookupPED D word false false with _ | ⟨e, es⟩
  case cons =>
    rw [hd] at h
    simp only [List.isEmpty_cons, Bool.not_false, if_true] at h
    injection h with h
    subst h
    simp
  case nil =>
    rw [hd] at h
    simp only [List.isEmpty_nil, Bool.not_true, Bool.false_eq_true,
      if_false] at h
    rcases hs : stemSearch D (getStemCandidates word).tail with _ | rs
    case some =>
      rw [hs] at h
      simp only [] at h
      injection h with h
      subst h
      simp
    case none =>
      rw [hs] at h
      simp only [] at h
      rcases hbd : breakDownWord D order fuel word with _ | parts
      case none =>
        rw [hbd] at h
        simp at h
      case some =>
        rw [hbd] at h
        simp only [] at h
        by_cases hlen : parts.length ≤ 1
        · rw [if_pos hlen] at h
          injection h with h
          subst h
          simp
        · rw [if_neg hlen] at h
          exact c9_final_branch word _ resp
            (by simp only [List.length_map]; omega) h

/-- Witness for C9: the empty dictionary and the unsplittable word `"a"`
produce the trivial response, for which both sides of the equivalence
are false. -/
theorem claim_C9_witness :
    (⟨goStr "a", [], false, []⟩ : DictLookupResponse).isCompound = true ↔
      2 ≤ (⟨goStr "a", [], false, []⟩ : DictLookupResponse).breakdown.length ∧
        ((⟨goStr "a", [], false, []⟩ : DictLookupResponse).breakdown.any
          (fun c => !c.results.isEmpty)) = true :=
  claim_C9_isCompound_iff [] [] 1 (goStr "a")
    ⟨goStr "a", [], false, []⟩ (by rfl)

theorem listLtB_irrefl (x : GoStr) : listLtB x x = false := by
  induction x with
  | nil => rfl
  | cons a as ih =>
    unfold listLtB
    simp [ih]

theorem listLtB_trans (x : GoStr) : ∀ y z : GoStr,
    listLtB x y = true → listLtB y z = true → listLtB x z = true := by
  induction x with
  | nil =>
    intro y z hxy hyz
    cases y with
    | nil => simp [listLtB] at hxy
    | cons b bs =>
      cases z with
      | nil => simp [listLtB] at hyz
      | cons c cs => rfl
  | cons a as ih =>
    intro y z hxy hyz
    cases y with
    | nil => simp [listLtB] at hxy
    | cons b bs =>
      cases z with
      | nil => simp [listLtB] at hyz
      | cons c cs =>
        unfold listLtB at hxy hyz ⊢
        by_cases h1 : a < b <;> by_cases h2 : b < c
        · have h3 : a < c := Nat.lt_trans h1 h2
          simp [h3]
        · simp only [h2, if_false] at hyz
          by_cases h4 : c < b
          · simp [h4] at hyz
          · have h3 : a < c := by omega
            simp [h3]
        · simp only [h1, if_false] at hxy
          by_cases h4 : b < a
          · simp [h4] at hxy
          · have h3 : a < c := by omega
            simp [h3]
        · simp only [h1, if_false] at hxy
          simp only [h2, if_false] at hyz
          by_cases h4 : b < a
          · simp [h4] at hxy
          · by_cases h5 : c < b
            · simp [h5] at hyz
            · have h6 : ¬ a < c := by omega
              have h7 : ¬ c < a := by omega
              simp only [h6, if_false, h7]
              simp only [h4, if_false] at hxy
              simp only [h5, if_false] at hyz
              exact ih bs cs hxy hyz

theorem listLtB_conn (x : GoStr) : ∀ y : GoStr,
    listLtB x y = false → listLtB y x = false → x = y := by
  induction x with
  | nil =>
    intro y h1 h2
    cases y with
    | nil => rfl
    | cons b bs => simp [listLtB] at h1
  | cons a as ih =>
    intro y h1 h2
    cases y with
    | nil => simp [listLtB] at h2
    | cons b bs =>
      unfold listLtB at h1 h2
      by_cases h3 : a < b
      · simp [h3] at h1
      · by_cases h4 : b < a
        · simp [h4] at h2
        · have h5 : a = b := by omega
          subst h5
          simp only [h3, if_false] at h1 h2
          rw [ih bs h1 h2]

theorem listLtB_asymm (x y : GoStr) (h : listLtB x y = true) :
    listLtB y x = false := by
  rcases h2 : listLtB y x with _ | _
  · rfl
  · have h3 := listLtB_trans x y x h h2
    rw [listLtB_irrefl x] at h3
    exact Bool.noConfusion h3

theorem listLtB_neg_trans (x y z : GoStr) (h1 : listLtB x y = false)
    (h2 : listLtB y z = false) : listLtB x z = false := by
  rcases h3 : listLtB x z with _ | _
  · rfl
  · by_cases h4 : listLtB y x = true
    · have h5 := listLtB_trans y x z h4 h3
      rw [h5] at h2
      exact Bool.noConfusion h2
    · have h5 : listLtB y x = false := Bool.eq_false_iff.mpr h4
      have h6 : x = y := listLtB_conn x y h1 h5
      subst h6
      rw [h3] at h2
      exact Bool.noConfusion h2

/-- The three-level comparison at the heart of the `less` closure of
`sortResultsByRelevance`: exactness, then prefixhood, then alphabetical
order. -/
def lexLess (e1 p1 : Bool) (n1 : GoStr) (e2 p2 : Bool) (n2 : GoStr) : Bool :=
  if e1 != e2 then e1
  else if p1 != p2 then p1
  else listLtB n1 n2

theorem dprLess_eq_lexLess (qn : GoStr) (fz : Bool) (a b : DictEntry) :
    dprLess qn fz a b =
      lexLess (decide (entryNormFor fz a = qn))
        (qn.isPrefixOf (entryNormFor fz a)) (entryNormFor fz a)
        (decide (entryNormFor fz b = qn))
        (qn.isPrefixOf (entryNormFor fz b)) (entryNormFor fz b) := rfl

theorem lexLess_asymm (e1 p1 : Bool) (n1 : GoStr) (e2 p2 : Bool) (n2 : GoStr)
    (h : lexLess e1 p1 n1 e2 p2 n2 = true) :
    lexLess e2 p2 n2 e1 p1 n1 = false := by
  cases e1 <;> cases e2 <;> cases p1 <;> cases p2 <;>
    simp only [lexLess] at h ⊢ <;>
    simp at h ⊢ <;>
    first
    | rfl
    | exact listLtB_asymm n1 n2 h
    | exact h

theorem lexLess_neg_trans (e1 p1 : Bool) (n1 : GoStr) (e2 p2 : Bool)
    (n2 : GoStr) (e3 p3 : Bool) (n3 : GoStr)
    (h1 : lexLess e2 p2 n2 e1 p1 n1 = false)
    (h2 : lexLess e3 p3 n3 e2 p2 n2 = false) :
    lexLess e3 p3 n3 e1 p1 n1 = false := by
  cases e1 <;> cases e2 <;> cases e3 <;> cases p1 <;> cases p2 <;> cases p3 <;>
    simp only [lexLess] at h1 h2 ⊢ <;>
    simp at h1 h2 ⊢ <;>
    first
    | rfl
    | exact listLtB_neg_trans n3 n2 n1 h2 h1
    | exact h1
    | exact h2

theorem dprLess_asymm (qn : GoStr) (fz : Bool) (a b : DictEntry)
    (h : dprLess qn fz a b = true) : dprLess qn fz b a = false := by
  rw [dprLess_eq_lexLess] at h ⊢
  exact lexLess_asymm _ _ _ _ _ _ h

/-- `sort.Slice` asks its `less` closure to be a strict weak order; the
complement of the relevance comparison is total. -/
instance dprLessCompTotal (qn : GoStr) (fz : Bool) :
    IsTotal DictEntry (fun a b => dprLess qn fz b a = false) := by
  constructor
  intro a b
  by_cases h : dprLess qn fz b a = true
  · exact Or.inr (dprLess_asymm qn fz b a h)
  · exact Or.inl (Bool.eq_false_iff.mpr h)

/-- The complement of the relevance comparison is transitive. -/
instance dprLessCompTrans (qn : GoStr) (fz : Bool) :
    IsTrans DictEntry (fun a b => dprLess qn fz b a = false) := by
  constructor
  intro a b c h1 h2
  rw [dprLess_eq_lexLess] at h1 h2 ⊢
  exact lexLess_neg_trans _ _ _ _ _ _ _ _ _ h1 h2

/-- Does the entry count as an exact match for the query in the active
matching mode (the equality tested by `sortResultsByRelevance`)? -/
def isExactFor (query : GoStr) (fuzzy : Bool) (e : DictEntry) : Bool :=
  decide (entryNormFor fuzzy e = queryNormFor query fuzzy)

/-- Claim C5: in the list produced by `sortResultsByRelevance`, every
entry whose normalized form equals the normalized query (in the active
matching mode) appears before every entry whose normalized form does
not: pairwise along the output, if the later entry is exact then so is
the earlier one. -/
theorem claim_C5_exact_matches_first (results : List DictEntry)
    (query : GoStr) (fuzzy : Bool) :
    (sortResultsByRelevance results query fuzzy).Pairwise
      (fun a b => isExactFor query fuzzy b = true →
        isExactFor query fuzzy a = true) := by
  have hs : (sortResultsByRelevance results query fuzzy).Sorted
      (fun a b => dprLess (queryNormFor query fuzzy) fuzzy b a = false) :=
    List.sorted_insertionSort _ results
  refine List.Pairwise.imp ?_ hs
  intro a b hr hb
  by_contra ha
  have hbe : decide (entryNormFor fuzzy b = queryNormFor query fuzzy) =
      true := hb
  have hae : decide (entryNormFor fuzzy a = queryNormFor query fuzzy) =
      false := by
    unfold isExactFor at ha
    exact Bool.eq_false_iff.mpr ha
  have hlt : dprLess (queryNormFor query fuzzy) fuzzy b a = true := by
    rw [dprLess_eq_lexLess]
    unfold lexLess
    rw [hbe, hae]
    rfl
  rw [hlt] at hr
  exact Bool.noConfusion hr
